import Mathlib

/-!
# Verification of the cdnizer directory indexer

Shallow embedding of `src/main.rs` from the `cdnizer` repository: a tool
that provisions a vendor asset directory and recursively walks a directory
tree, writing an `index.json` and `index.html` listing per directory.

Filesystem paths are embedded as lists of path components (mirroring
`std::path::Component`); the filesystem itself is embedded as an inductive
tree whose nodes carry the data the program reads from `std::fs`
(metadata, directory readability, per-entry read results).  Fallible
operations return `Except`/`Option`; the traversal returns the ordered
trace of listing writes it performs together with the error, if any, that
aborted it.
-/

namespace Cdnizer

/-- Embeds `std::path::Component` (the Windows `Prefix` variant is not
producible on the paths this program builds and is omitted). -/
inductive Component where
  | rootDir
  | curDir
  | parentDir
  | normal (s : String)
deriving DecidableEq, Repr

/-- The string a component contributes in `to_web_path`'s map step:
`Component::Normal(elem)` maps to `elem`, everything else to the empty
`OsString`. -/
def component_str : Component → String
  | .normal s => s
  | _ => ""

/-- Embeds `Vec<OsString>::join(OsStr::new("/"))`. -/
def join_slash : List String → String
  | [] => ""
  | [s] => s
  | s :: rest => s ++ "/" ++ join_slash rest

/-- Embeds `ToWebPath::to_web_path` for `Path`: map each component to its
name (empty for non-`Normal` components), drop empty strings, join with
`/`. -/
def to_web_path (p : List Component) : String :=
  join_slash ((p.map component_str).filter (fun s => s ≠ ""))

/-- The segments `to_web_path` keeps (the intermediate list right before
the `/`-join in the source). -/
def web_segments (p : List Component) : List String :=
  (p.map component_str).filter (fun s => s ≠ "")

/-- Embeds `Path::parent`: `None` for the empty path and for the root,
otherwise the path without its final component. -/
def parent : List Component → Option (List Component)
  | [] => none
  | [Component.rootDir] => none
  | p => some p.dropLast

/-- Embeds `Path::file_name`: the final component if it is `Normal`. -/
def file_name (p : List Component) : Option String :=
  match p.getLast? with
  | some (Component.normal s) => some s
  | _ => none

/-- One breadcrumb of the navigation trail (`struct Breadcrumb`). -/
structure Breadcrumb where
  name : String
  path : String
deriving DecidableEq, Repr

/-- The `while let Some(path) = current_path` loop of
`ToBreadcrumbs::to_breadcrumbs`: stop at the `.` root, otherwise push a
crumb for the current path and continue with its parent (`None` parent
ends the loop).  `fuel` bounds the number of iterations; every iteration
strictly shortens the path, so any fuel exceeding the component count
makes the artificial `0` case unreachable. -/
def crumb_walk : Nat → List Component → List Breadcrumb
  | 0, _ => []
  | fuel + 1, p =>
    if p = [Component.curDir] then []
    else
      ⟨(file_name p).getD "", to_web_path p⟩ ::
        (match parent p with
         | none => []
         | some q => crumb_walk fuel q)

/-- Embeds `ToBreadcrumbs::to_breadcrumbs` for `Path`: collect crumbs
walking up to the `.` root, then reverse so the result reads
root-to-leaf. -/
def to_breadcrumbs (p : List Component) : List Breadcrumb :=
  (crumb_walk (p.length + 1) p).reverse

/-- The vendor asset directory name (`static VENDOR_DIR_NAME`). -/
def VENDOR_DIR_NAME : String := "_vendor"

/-- Embeds `fn ignore(path: &Path) -> bool`: the file name equals the
vendor directory name, or equals `index.html`/`index.json`; a path
without a file name is not ignored (`unwrap_or(false)`). -/
def ignore (file_name : Option String) : Bool :=
  ((file_name.map (fun s => s == VENDOR_DIR_NAME)).getD false)
  || ((file_name.map (fun s => s == "index.html" || s == "index.json")).getD false)

/-- Embeds `Path::extension` applied to a file name: the portion after
the last `.`; `None` when there is no `.` or when the only `.` starts the
name (hidden files). -/
def extension (name : String) : Option String :=
  let r := name.toList.reverse
  let suf := r.takeWhile (fun c => c ≠ '.')
  let pre := r.dropWhile (fun c => c ≠ '.')
  if pre = [] then none
  else if pre = ['.'] then none
  else some (String.mk suf.reverse)

/-- Embeds `fn icon(path: &Path) -> &'static str`.  The source consults
`path.is_dir()` and `path.extension()` (defaulted to the empty string);
those two projections are this function's arguments. -/
def icon (is_dir : Bool) (ext : Option String) : String :=
  if is_dir then "dir.png"
  else match ext.getD "" with
  | ".." => "back.png"
  | "" | "^^BLANKICON^^" => "blank.gif"
  | "comp" => "comp.png"
  | "zip" | "tar" | "tgz" | "rar" | "gz" | "bz2" => "compressed.gif"
  | "doc" | "docx" => "doc.png"
  | "xls" | "xlsx" => "xls.png"
  | "ppt" | "pptx" => "ppt.png"
  | "txt" | "text" | "html" | "htm" | "md" | "mdown" | "markdown" => "text.png"
  | "pdf" => "pdf.png"
  | "jpg" | "jpeg" | "png" | "gif" | "tif" | "tiff" | "webp" => "image.png"
  | "ps" => "ps.png"
  | "mp3" | "wav" | "m4a" | "ogg" => "sound.png"
  | "wmv" | "avi" | "mp4" | "webm" => "movie-ms.gif"
  | "mov" | "qt" => "mov.png"
  | "java" => "java.png"
  | "js" => "js.png"
  | "php" => "php.png"
  | _ => "text.png"

/-- The data `std::fs::Metadata` supplies to `Entry::new`: the
modification timestamp (`modified()`, as a UTC instant embedded as an
integer) and the byte length (`len()`). -/
structure Meta where
  modified : Int
  len : Nat
deriving DecidableEq

/-- A filesystem node as this program observes it.
* `file name meta` — a non-directory child; `meta = none` means the
  `path.metadata()` call inside `Entry::new` fails for it.
* `dir name meta readable children jsonOk htmlOk` — a directory;
  `meta = none` likewise makes its own `Entry::new` fail; `readable =
  false` makes `read_dir()` on it fail; a `none` item in `children` is an
  `Err` item yielded by the `read_dir` iterator (the `if let Ok(...)`
  filter drops it); `jsonOk` / `htmlOk` say whether the
  delete-create-write of its `index.json` / `index.html` succeeds. -/
inductive FsTree where
  | file (name : String) (meta : Option Meta)
  | dir (name : String) (meta : Option Meta) (readable : Bool)
        (children : List (Option FsTree)) (jsonOk : Bool) (htmlOk : Bool)

def FsTree.name : FsTree → String
  | .file n _ => n
  | .dir n _ _ _ _ _ => n

def FsTree.meta : FsTree → Option Meta
  | .file _ m => m
  | .dir _ m _ _ _ _ => m

def FsTree.isDir : FsTree → Bool
  | .file _ _ => false
  | .dir _ _ _ _ _ _ => true

/-- Models the external `size` crate's `Display` for
`Size::from_bytes(len)`.  The exact human-readable rendering lives
outside this repository; all that matters here is that it is a pure
function of the byte length. -/
def format_size (len : Nat) : String := toString len ++ " B"

/-- Embeds `struct Entry` (`name`, `path`, `icon`, `date`, `size`). -/
structure Entry where
  name : String
  path : String
  icon : String
  date : Int
  size : String
deriving DecidableEq

/-- The error that aborts a run, by source site.  `fuel` is an artifact
of the fuelled loop embedding and never occurs once the fuel exceeds the
tree height. -/
inductive Err where
  | readDir
  | metadata
  | writeJson
  | writeHtml
  | fuel
deriving DecidableEq

/-- Embeds `Entry::new(path)` for the child named `t.name` of the
directory whose name components from the traversal root are
`parent_names` (the source receives `dir_entry.path()`, i.e. the parent
path — which starts at the `.` root — joined with the child's file
name).  `path.metadata()?` failing propagates the error. -/
def Entry.new (parent_names : List String) (t : FsTree) : Except Err Entry :=
  match t.meta with
  | none => .error .metadata
  | some m =>
    .ok { name := t.name
        , path := to_web_path
            (Component.curDir :: (parent_names ++ [t.name]).map Component.normal)
        , icon := Cdnizer.icon t.isDir (extension t.name)
        , date := m.modified
        , size := if t.isDir then "directory" else format_size m.len }

/-- The shape serde gives one entry of `index.json`: `path` and `icon`
carry `#[serde(skip)]`, so exactly `name`, `date` and `size` remain. -/
structure JsonEntry where
  name : String
  date : Int
  size : String
deriving DecidableEq

/-- Serialization of one `Entry` into `index.json` (drops the skipped
`path` and `icon` fields). -/
def serialize_entry (e : Entry) : JsonEntry := ⟨e.name, e.date, e.size⟩

/-- One output-file write performed by `generate_index`, recorded with
the directory it happens in (as name components from the traversal root)
and the data written. -/
inductive Write where
  | json (dir : List String) (entries : List JsonEntry)
  | html (dir : List String) (vendor_dir : String)
         (breadcrumbs : List Breadcrumb) (entries : List Entry)
deriving DecidableEq

def Write.dir : Write → List String
  | .json d _ => d
  | .html d _ _ _ => d

def Write.entry_names : Write → List String
  | .json _ es => es.map JsonEntry.name
  | .html _ _ _ es => es.map Entry.name

/-- The comparator `|a, b| a.name.cmp(&b.name)` used for
`directories.sort_by`. -/
def by_name (a b : Entry) : Prop := a.name ≤ b.name

/-- The comparator `|a, b| b.date.cmp(&a.date)` used for
`files.sort_by`: most recently modified first. -/
def by_date_desc (a b : Entry) : Prop := b.date ≤ a.date

instance : DecidableRel by_name :=
  fun a b => inferInstanceAs (Decidable (a.name ≤ b.name))

instance : DecidableRel by_date_desc :=
  fun a b => inferInstanceAs (Decidable (b.date ≤ a.date))

instance : IsTotal Entry by_name := ⟨fun a b => le_total a.name b.name⟩

instance : IsTrans Entry by_name := ⟨fun _ _ _ h1 h2 => le_trans h1 h2⟩

instance : IsTotal Entry by_date_desc := ⟨fun a b => le_total b.date a.date⟩

instance : IsTrans Entry by_date_desc := ⟨fun _ _ _ h1 h2 => le_trans h2 h1⟩

/-- The `for dir_entry in path.as_ref().read_dir()?` loop of
`generate_index`, with the recursive call abstracted as `rec`.  `names`
is the current directory; `dirs`, `files` and `tr` accumulate the
`directories` / `files` vectors and the writes already performed.  An
`Err` iterator item (`none`) is dropped by the `if let Ok(dir_entry)`
pattern; an ignored child is `continue`d over; `Entry::new(...)?` and a
failing recursion abort the loop with the trace so far. -/
def walk_children (rec : List String → FsTree → List Write × Option Err)
    (names : List String) :
    List (Option FsTree) → List Entry → List Entry → List Write →
      Except (List Write × Err) (List Entry × List Entry × List Write)
  | [], dirs, files, tr => .ok (dirs, files, tr)
  | none :: rest, dirs, files, tr => walk_children rec names rest dirs files tr
  | some t :: rest, dirs, files, tr =>
    if ignore (some t.name) then walk_children rec names rest dirs files tr
    else
      match Entry.new names t with
      | .error e => .error (tr, e)
      | .ok entry =>
        if t.isDir then
          match rec (names ++ [t.name]) t with
          | (ctr, some e) => .error (tr ++ ctr, e)
          | (ctr, none) => walk_children rec names rest (dirs ++ [entry]) files (tr ++ ctr)
        else
          walk_children rec names rest dirs (files ++ [entry]) tr

/-- Embeds `fn generate_index(path)`; `names` is the visited directory's
list of name components below the traversal root (`[]` for the root
itself, whose concrete path is `.`).  Returns the ordered trace of
listing writes together with the error, if any, that aborted the run.
The stable `sort_by` calls are embedded as `List.insertionSort` (a
stable sort; any two stable sorts agree pointwise).  `fuel` bounds the
recursion depth; each recursive call descends one tree level, so fuel
exceeding the tree height makes the artificial `0` case unreachable. -/
def generate_index : Nat → List String → FsTree → List Write × Option Err
  | 0, _, _ => ([], some Err.fuel)
  | fuel + 1, names, t =>
    match t with
    | .file _ _ => ([], some Err.readDir)
    | .dir _ _ readable cs jsonOk htmlOk =>
      if readable then
        match walk_children (generate_index fuel) names cs [] [] [] with
        | .error (tr, e) => (tr, some e)
        | .ok (directories, files, tr) =>
          let directories := List.insertionSort by_name directories
          let files := List.insertionSort by_date_desc files
          if jsonOk then
            let tr := tr ++ [Write.json names (files.map serialize_entry)]
            let entries := directories ++ files
            if htmlOk then
              (tr ++ [Write.html names VENDOR_DIR_NAME
                        (to_breadcrumbs (Component.curDir :: names.map Component.normal))
                        entries], none)
            else (tr, some Err.writeHtml)
          else (tr, some Err.writeJson)
      else ([], some Err.readDir)

/-- A filesystem error as `main`'s provisioning step can see one. -/
inductive FsError where
  | notFound
  | other
deriving DecidableEq

/-- Embeds `std::fs::remove_dir_all(path)`: removing a path that does
not exist fails with a `NotFound` error; removing an existing directory
succeeds (other failure modes such as permission errors are not needed
by the claims). -/
def remove_dir_all (dir_exists : Bool) : Except FsError Unit :=
  if dir_exists then .ok () else .error FsError.notFound

/-- Embeds step 1 of `main` (the asset provisioner):
`remove_dir_all(VENDOR_DIR_NAME)?; create_dir(VENDOR_DIR_NAME)?;
VENDOR_DIR.extract(VENDOR_DIR_NAME)?`.  `vendor` is the vendor
subdirectory's current contents if it exists (`none` when absent);
`assets` is the embedded asset set; the result is the vendor
subdirectory's contents after provisioning. -/
def provision (vendor : Option (List String)) (assets : List String) :
    Except FsError (List String) :=
  match remove_dir_all vendor.isSome with
  | .error e => .error e
  | .ok () => .ok assets

/-- The children the `read_dir` iterator yields successfully
(`if let Ok(dir_entry)` keeps exactly these). -/
def ok_children (cs : List (Option FsTree)) : List FsTree := cs.filterMap id

/-- The successfully-read children that survive the `ignore` filter. -/
def kept_children (cs : List (Option FsTree)) : List FsTree :=
  (ok_children cs).filter (fun t => ! ignore (some t.name))

/-- The kept children that are directories. -/
def dir_children (cs : List (Option FsTree)) : List FsTree :=
  (kept_children cs).filter (fun t => t.isDir)

/-- The kept children that are plain files. -/
def file_children (cs : List (Option FsTree)) : List FsTree :=
  (kept_children cs).filter (fun t => ! t.isDir)

/-- The entry `Entry::new` produces for child `t` of the directory
`names` when the metadata read succeeds (total companion of
`Entry.new`). -/
def entry_of (names : List String) (t : FsTree) : Entry :=
  { name := t.name
  , path := to_web_path
      (Component.curDir :: (names ++ [t.name]).map Component.normal)
  , icon := icon t.isDir (extension t.name)
  , date := (t.meta.getD ⟨0, 0⟩).modified
  , size := if t.isDir then "directory" else format_size (t.meta.getD ⟨0, 0⟩).len }

/-- The concatenation, in enumeration order, of the traces the recursive
calls on a directory's subdirectory children produce. -/
def children_traces (rec : List String → FsTree → List Write × Option Err)
    (names : List String) (cs : List (Option FsTree)) : List Write :=
  (dir_children cs).flatMap (fun t => (rec (names ++ [t.name]) t).1)

/-- The trace of writes a `walk_children` result carries, whether the
loop completed or aborted. -/
def walk_trace :
    Except (List Write × Err) (List Entry × List Entry × List Write) → List Write
  | .ok (_, _, t) => t
  | .error (t, _) => t

/-- Modelled from the spec: the fixed extension-to-icon-key table of
spec section 4.2 (one pair per extension), stated from the spec's words
so it can be compared with the `icon` function taken from the source. -/
def spec_icon_table : List (String × String) :=
  [("comp", "comp"),
   ("zip", "compressed"), ("tar", "compressed"), ("tgz", "compressed"),
   ("rar", "compressed"), ("gz", "compressed"), ("bz2", "compressed"),
   ("doc", "doc"), ("docx", "doc"),
   ("xls", "xls"), ("xlsx", "xls"),
   ("ppt", "ppt"), ("pptx", "ppt"),
   ("txt", "text"), ("text", "text"), ("html", "text"), ("htm", "text"),
   ("md", "text"), ("mdown", "text"), ("markdown", "text"),
   ("pdf", "pdf"),
   ("jpg", "image"), ("jpeg", "image"), ("png", "image"), ("gif", "image"),
   ("tif", "image"), ("tiff", "image"), ("webp", "image"),
   ("ps", "ps"),
   ("mp3", "sound"), ("wav", "sound"), ("m4a", "sound"), ("ogg", "sound"),
   ("wmv", "movie"), ("avi", "movie"), ("mp4", "movie"), ("webm", "movie"),
   ("mov", "mov"), ("qt", "mov"),
   ("java", "java"), ("js", "js"), ("php", "php")]

/-- The bundled asset file name the source's `icon` function returns for
each spec icon key (the spec's keys abstract these file names; only
`compressed` and `movie` use `.gif` bundles, the rest `.png`). -/
def icon_asset : String → String
  | "compressed" => "compressed.gif"
  | "movie" => "movie-ms.gif"
  | k => k ++ ".png"

/-- Every extension string with a non-default arm in the source's `icon`
match (including the source's `".."` and blank-icon special cases). -/
def recognized_extensions : List String :=
  ["..", "", "^^BLANKICON^^", "comp",
   "zip", "tar", "tgz", "rar", "gz", "bz2",
   "doc", "docx", "xls", "xlsx", "ppt", "pptx",
   "txt", "text", "html", "htm", "md", "mdown", "markdown", "pdf",
   "jpg", "jpeg", "png", "gif", "tif", "tiff", "webp", "ps",
   "mp3", "wav", "m4a", "ogg", "wmv", "avi", "mp4", "webm",
   "mov", "qt", "java", "js", "php"]

/-- Children of the sample tree used by concrete witnesses: a plain
file, a subdirectory with one file, a file named `index.html`, the
vendor subdirectory, and one `Err` iterator item. -/
def sample_children : List (Option FsTree) :=
  [ some (.file "a.txt" (some ⟨10, 5⟩)),
    some (.dir "sub" (some ⟨20, 0⟩) true
      [some (.file "b.txt" (some ⟨30, 7⟩))] true true),
    some (.file "index.html" (some ⟨1, 1⟩)),
    some (.dir "_vendor" (some ⟨2, 2⟩) true [] true true),
    none ]

/-- The sample traversal root holding `sample_children`. -/
def sample_tree : FsTree := .dir "." none true sample_children true true

/-- Children of a directory whose subdirectory `sub` is unreadable, so
the recursion into `sub` fails after `a.txt` was already collected. -/
def unreadable_sub_children : List (Option FsTree) :=
  [ some (.file "a.txt" (some ⟨10, 5⟩)),
    some (.dir "sub" (some ⟨20, 0⟩) false [] true true) ]

/-- A tree with a child whose metadata read fails, followed by a healthy
sibling. -/
def metadata_failure_tree : FsTree :=
  .dir "." none true
    [ some (.file "bad" none), some (.file "good" (some ⟨5, 3⟩)) ] true true

example : to_web_path [Component.normal "a", Component.normal "b"] = "a/b" := by decide
example : to_breadcrumbs [Component.curDir] = [] := by decide
example : to_breadcrumbs [Component.curDir, Component.normal "x", Component.normal "y"] =
    [⟨"x", "x"⟩, ⟨"y", "x/y"⟩] := by decide
example : icon false (some "pdf") = "pdf.png" := by decide
example : icon false none = "blank.gif" := by decide
example : extension "a.txt" = some "txt" := by decide
example : extension ".gitignore" = none := by decide
example : extension "Makefile" = none := by decide
example : ignore (some "_vendor") = true := by decide
example : ignore (some "a.txt") = false := by decide

/-- C2 (counterexample): on a run where the vendor subdirectory does not
yet exist, provisioning does *not* succeed — `remove_dir_all` fails with
`NotFound` and the `?` operator aborts `main` before any indexing. -/
theorem provision_fails_on_fresh_tree :
    provision none ["style.css"] = Except.error FsError.notFound := rfl

/-- C2 (amended): the asset provisioner deletes the vendor subdirectory
unconditionally; when the subdirectory exists it is recreated and
populated with exactly the embedded asset set, but when it is absent the
deletion fails with `NotFound` and provisioning (hence the whole run)
fails. -/
theorem provision_spec :
    (∀ (prev assets : List String), provision (some prev) assets = Except.ok assets)
    ∧ (∀ assets : List String, provision none assets = Except.error FsError.notFound) :=
  ⟨fun _ _ => rfl, fun _ => rfl⟩

/-- C3 (counterexample): a file with no extension at all does not map to
the default generic-text icon key `text.png`; the source's
`"" | "^^BLANKICON^^"` arm maps it to `blank.gif`. -/
theorem icon_no_extension_not_text :
    icon false none = "blank.gif" ∧ icon false none ≠ "text.png" := by decide

/-- C3 (amended): a directory maps to the directory icon key; a file
with an unrecognized extension maps to the default generic-text icon
key; but a file with no extension at all (extension defaulted to the
empty string) maps to the blank icon key `blank.gif`, not to the text
default. -/
theorem icon_default_classification :
    (∀ e : Option String, icon true e = "dir.png")
    ∧ icon false none = "blank.gif"
    ∧ (∀ s : String, s ∉ recognized_extensions → icon false (some s) = "text.png") := by
  refine ⟨fun e => rfl, by decide, fun s hs => ?_⟩
  unfold icon
  simp only [Bool.false_eq_true, if_false, Option.getD_some]
  split
  all_goals first
    | rfl
    | (exact absurd (by decide) hs)

/-- C3 (witness for `icon_default_classification`): concrete
instances — a directory, an extensionless file, and the unrecognized
extension `xyz`. -/
theorem icon_default_classification_witness :
    icon true none = "dir.png" ∧ icon false none = "blank.gif"
    ∧ icon false (some "xyz") = "text.png" :=
  ⟨icon_default_classification.1 none, icon_default_classification.2.1,
    icon_default_classification.2.2 "xyz" (by decide)⟩

/-- C4: for every extension listed in the spec's fixed table, the icon
classification of a non-directory path carrying that extension is
exactly the bundled asset the table's icon key names, matched
case-sensitively (`icon` depends on a file path only through
`is_dir` and `extension`, so this covers every file path with a listed
extension); the uppercase `PDF` is not matched. -/
theorem icon_table_exact :
    (∀ p ∈ spec_icon_table, icon false (some p.1) = icon_asset p.2)
    ∧ icon false (some "PDF") = "text.png" := by
  constructor
  · decide
  · decide

/-- C4 (witness for `icon_table_exact`): the `zip → compressed` row at a
concrete input. -/
theorem icon_table_exact_witness :
    icon false (some "zip") = icon_asset "compressed" :=
  icon_table_exact.1 ("zip", "compressed") (by decide)

theorem web_segments_map_normal (p : List Component) :
    web_segments ((web_segments p).map Component.normal) = web_segments p := by
  simp only [web_segments, List.map_map]
  have h1 : component_str ∘ Component.normal = fun s => s := rfl
  rw [h1, List.map_id', List.filter_filter]
  simp

/-- C8: `to_web_path` keeps only normal segments — under the invariant
(guaranteed by `Path::components`) that normal components are never
empty, `.`, or `..`, no kept segment is empty, `.`, or `..`; re-running
it on its own kept segments is the identity; a leading root marker
changes nothing; and the segments `a`, `b` join to `a/b`. -/
theorem to_web_path_normalization :
    (∀ p : List Component,
        (∀ s, Component.normal s ∈ p → s ≠ "" ∧ s ≠ "." ∧ s ≠ "..") →
        ∀ seg ∈ web_segments p, seg ≠ "" ∧ seg ≠ "." ∧ seg ≠ "..")
    ∧ (∀ p : List Component,
        to_web_path ((web_segments p).map Component.normal) = to_web_path p)
    ∧ (∀ p : List Component,
        to_web_path (Component.rootDir :: p) = to_web_path p)
    ∧ to_web_path [Component.normal "a", Component.normal "b"] = "a/b" := by
  refine ⟨fun p hp seg hseg => ?_, fun p => ?_, fun p => ?_, by decide⟩
  · rw [web_segments, List.mem_filter] at hseg
    obtain ⟨hmem, hne⟩ := hseg
    obtain ⟨c, hc, hcs⟩ := List.mem_map.mp hmem
    cases c with
    | normal s => exact hcs ▸ hp s hc
    | rootDir => simp [component_str, ← hcs] at hne
    | curDir => simp [component_str, ← hcs] at hne
    | parentDir => simp [component_str, ← hcs] at hne
  · rw [to_web_path, to_web_path, ← web_segments, ← web_segments,
      web_segments_map_normal]
  · rw [to_web_path, to_web_path]
    simp [component_str]

/-- C8 (witness for `to_web_path_normalization`): the concrete path with
normal segments `a`, `b`. -/
theorem to_web_path_normalization_witness :
    ∀ seg ∈ web_segments [Component.normal "a", Component.normal "b"],
      seg ≠ "" ∧ seg ≠ "." ∧ seg ≠ ".." :=
  to_web_path_normalization.1 _ (by
    intro s hs
    simp only [List.mem_cons, List.not_mem_nil, or_false,
      Component.normal.injEq] at hs
    rcases hs with h | h <;> subst h <;> exact ⟨by decide, by decide, by decide⟩)

/-- C9: a directory three levels below the traversal root (concrete path
`./x/y/z`) yields exactly three breadcrumbs, root-to-leaf, with paths
`x`, `x/y`, `x/y/z` and display names `x`, `y`, `z`; the traversal root
`.` itself yields no breadcrumb at all. -/
theorem to_breadcrumbs_three_levels :
    (∀ x y z : String, x ≠ "" → y ≠ "" → z ≠ "" →
      to_breadcrumbs
          [Component.curDir, Component.normal x, Component.normal y,
           Component.normal z] =
        [⟨x, x⟩, ⟨y, x ++ "/" ++ y⟩, ⟨z, x ++ "/" ++ y ++ "/" ++ z⟩])
    ∧ to_breadcrumbs [Component.curDir] = [] := by
  refine ⟨fun x y z hx hy hz => ?_, by decide⟩
  simp [to_breadcrumbs, crumb_walk, parent, file_name, to_web_path,
    join_slash, component_str, List.dropLast, hx, hy, hz, String.append_assoc]

/-- C9 (witness for `to_breadcrumbs_three_levels`): the concrete path
`./x/y/z`. -/
theorem to_breadcrumbs_three_levels_witness :
    to_breadcrumbs
        [Component.curDir, Component.normal "x", Component.normal "y",
         Component.normal "z"] =
      [⟨"x", "x"⟩, ⟨"y", "x/y"⟩, ⟨"z", "x/y/z"⟩] :=
  to_breadcrumbs_three_levels.1 "x" "y" "z" (by decide) (by decide) (by decide)

theorem kept_children_none (cs : List (Option FsTree)) :
    kept_children (none :: cs) = kept_children cs := rfl

theorem kept_children_some (t : FsTree) (cs : List (Option FsTree)) :
    kept_children (some t :: cs) =
      if ignore (some t.name) then kept_children cs else t :: kept_children cs := by
  simp only [kept_children, ok_children, List.filterMap_cons]
  cases h : ignore (some t.name) <;> simp [List.filter_cons, h]

theorem dir_children_none (cs : List (Option FsTree)) :
    dir_children (none :: cs) = dir_children cs := rfl

theorem dir_children_some (t : FsTree) (cs : List (Option FsTree)) :
    dir_children (some t :: cs) =
      if ignore (some t.name) then dir_children cs
      else if t.isDir then t :: dir_children cs else dir_children cs := by
  rw [dir_children, kept_children_some]
  cases h : ignore (some t.name)
  · cases hd : t.isDir <;> simp [List.filter_cons, hd, dir_children]
  · simp [dir_children]

theorem file_children_none (cs : List (Option FsTree)) :
    file_children (none :: cs) = file_children cs := rfl

theorem file_children_some (t : FsTree) (cs : List (Option FsTree)) :
    file_children (some t :: cs) =
      if ignore (some t.name) then file_children cs
      else if t.isDir then file_children cs else t :: file_children cs := by
  rw [file_children, kept_children_some]
  cases h : ignore (some t.name)
  · cases hd : t.isDir <;> simp [List.filter_cons, hd, file_children]
  · simp [file_children]

theorem children_traces_none (rec : List String → FsTree → List Write × Option Err)
    (names : List String) (cs : List (Option FsTree)) :
    children_traces rec names (none :: cs) = children_traces rec names cs := rfl

theorem children_traces_some (rec : List String → FsTree → List Write × Option Err)
    (names : List String) (t : FsTree) (cs : List (Option FsTree)) :
    children_traces rec names (some t :: cs) =
      if ignore (some t.name) then children_traces rec names cs
      else if t.isDir then
        (rec (names ++ [t.name]) t).1 ++ children_traces rec names cs
      else children_traces rec names cs := by
  rw [children_traces, dir_children_some]
  cases h : ignore (some t.name)
  · cases hd : t.isDir <;> simp [children_traces, List.flatMap_cons]
  · simp [children_traces]

theorem entry_new_ok {names : List String} {t : FsTree} {m : Meta}
    (h : t.meta = some m) :
    Entry.new names t = Except.ok (entry_of names t) := by
  simp [Entry.new, entry_of, h]

theorem entry_new_err {names : List String} {t : FsTree} (h : t.meta = none) :
    Entry.new names t = Except.error Err.metadata := by
  simp [Entry.new, h]

/-- Characterization of a completed `walk_children` loop: the collected
`directories` / `files` vectors are the accumulators followed by the
entries of exactly the kept directory / file children in enumeration
order, the trace extends the input trace by the subdirectories' traces,
and every kept subdirectory's recursive call returned no error. -/
theorem walk_children_ok (rec : List String → FsTree → List Write × Option Err)
    (names : List String) :
    ∀ (cs : List (Option FsTree)) (dirs files : List Entry) (tr : List Write)
      (D F : List Entry) (T : List Write),
      walk_children rec names cs dirs files tr = Except.ok (D, F, T) →
      D = dirs ++ (dir_children cs).map (entry_of names) ∧
      F = files ++ (file_children cs).map (entry_of names) ∧
      T = tr ++ children_traces rec names cs ∧
      ∀ t ∈ dir_children cs, (rec (names ++ [t.name]) t).2 = none := by
  intro cs
  induction cs with
  | nil =>
    intro dirs files tr D F T h
    simp only [walk_children, Except.ok.injEq, Prod.mk.injEq] at h
    obtain ⟨h1, h2, h3⟩ := h
    subst h1; subst h2; subst h3
    simp [dir_children, file_children, children_traces, kept_children, ok_children]
  | cons c rest ih =>
    intro dirs files tr D F T h
    match c with
    | none =>
      obtain ⟨h1, h2, h3, h4⟩ := ih dirs files tr D F T h
      exact ⟨by rwa [dir_children_none], by rwa [file_children_none],
        by rwa [children_traces_none], by rwa [dir_children_none]⟩
    | some t =>
      rw [walk_children] at h
      cases hig : ignore (some t.name) with
      | true =>
        rw [hig] at h; simp only [if_true] at h
        obtain ⟨h1, h2, h3, h4⟩ := ih dirs files tr D F T h
        rw [dir_children_some, file_children_some, children_traces_some, hig]
        simp only [if_true]
        exact ⟨h1, h2, h3, h4⟩
      | false =>
        rw [hig] at h; simp only [Bool.false_eq_true, if_false] at h
        cases hm : t.meta with
        | none => rw [entry_new_err hm] at h; exact absurd h (by simp)
        | some m =>
          rw [entry_new_ok hm] at h
          simp only at h
          rw [dir_children_some, file_children_some, children_traces_some, hig]
          simp only [Bool.false_eq_true, if_false]
          cases hd : t.isDir with
          | false =>
            rw [hd] at h; simp only [Bool.false_eq_true, if_false] at h
            obtain ⟨h1, h2, h3, h4⟩ :=
              ih dirs (files ++ [entry_of names t]) tr D F T h
            simp only [Bool.false_eq_true, if_false]
            refine ⟨h1, ?_, h3, h4⟩
            rw [h2]
            simp [List.append_assoc]
          | true =>
            rw [hd] at h; simp only [if_true] at h
            cases hr : rec (names ++ [t.name]) t with
            | mk ctr e =>
              rw [hr] at h
              cases e with
              | some err => exact absurd h (by simp)
              | none =>
                simp only at h
                obtain ⟨h1, h2, h3, h4⟩ :=
                  ih (dirs ++ [entry_of names t]) files (tr ++ ctr) D F T h
                simp only [if_true]
                refine ⟨?_, h2, ?_, ?_⟩
                · rw [h1]
                  simp [List.append_assoc]
                · rw [h3, List.append_assoc]
                · intro t' ht'
                  rcases List.mem_cons.mp ht' with h5 | h5
                  · subst h5; rw [hr]
                  · exact h4 t' h5

/-- On a successful visit of a directory, the trace is exactly the
subdirectories' traces (depth-first, in enumeration order) followed by
this directory's own `index.json` and `index.html` writes, carrying the
sorted entry lists. -/
theorem generate_index_success
    (fuel : Nat) (names : List String) (nm : String) (mt : Option Meta)
    (rd : Bool) (cs : List (Option FsTree)) (jk hk : Bool) (tr : List Write)
    (h : generate_index (fuel + 1) names (FsTree.dir nm mt rd cs jk hk)
          = (tr, none)) :
    tr = children_traces (generate_index fuel) names cs
         ++ [Write.json names
               ((List.insertionSort by_date_desc
                   ((file_children cs).map (entry_of names))).map serialize_entry),
             Write.html names VENDOR_DIR_NAME
               (to_breadcrumbs (Component.curDir :: names.map Component.normal))
               (List.insertionSort by_name ((dir_children cs).map (entry_of names))
                ++ List.insertionSort by_date_desc
                    ((file_children cs).map (entry_of names)))] := by
  rw [generate_index] at h
  cases rd with
  | false => exact absurd h (by simp)
  | true =>
    simp only [if_true] at h
    cases hw : walk_children (generate_index fuel) names cs [] [] [] with
    | error p =>
      obtain ⟨T, e⟩ := p
      rw [hw] at h
      exact absurd h (by simp)
    | ok q =>
      obtain ⟨D, F, T⟩ := q
      rw [hw] at h
      obtain ⟨hD, hF, hT, _⟩ :=
        walk_children_ok (generate_index fuel) names cs [] [] [] D F T hw
      simp only [List.nil_append] at hD hF hT
      cases jk with
      | false => exact absurd h (by simp)
      | true =>
        simp only [if_true] at h
        cases hk with
        | false => exact absurd h (by simp)
        | true =>
          simp only [if_true, Prod.mk.injEq] at h
          rw [← h.1, hD, hF, hT, List.append_assoc]
          simp

/-- Every write in a `walk_children` trace (completed or aborted) is
either carried over from the input trace or lies strictly below the
current directory, provided the recursive call's writes lie at or below
its own directory. -/
theorem walk_children_trace_below
    (rec : List String → FsTree → List Write × Option Err)
    (names : List String)
    (hrec : ∀ (names' : List String) (t : FsTree) (w : Write),
        w ∈ (rec names' t).1 → ∃ rest, w.dir = names' ++ rest) :
    ∀ (cs : List (Option FsTree)) (dirs files : List Entry) (tr : List Write)
      (w : Write),
      w ∈ walk_trace (walk_children rec names cs dirs files tr) →
      w ∈ tr ∨ ∃ c rest, w.dir = names ++ c :: rest := by
  intro cs
  induction cs with
  | nil =>
    intro dirs files tr w hw
    exact Or.inl hw
  | cons c rest ih =>
    intro dirs files tr w hw
    match c with
    | none => exact ih dirs files tr w hw
    | some t =>
      rw [walk_children] at hw
      cases hig : ignore (some t.name) with
      | true =>
        rw [hig] at hw; simp only [if_true] at hw
        exact ih dirs files tr w hw
      | false =>
        rw [hig] at hw; simp only [Bool.false_eq_true, if_false] at hw
        cases hm : t.meta with
        | none =>
          rw [entry_new_err hm] at hw
          exact Or.inl hw
        | some m =>
          rw [entry_new_ok hm] at hw
          simp only at hw
          cases hd : t.isDir with
          | false =>
            rw [hd] at hw; simp only [Bool.false_eq_true, if_false] at hw
            exact ih dirs (files ++ [entry_of names t]) tr w hw
          | true =>
            rw [hd] at hw; simp only [if_true] at hw
            cases hr : rec (names ++ [t.name]) t with
            | mk ctr e =>
              rw [hr] at hw
              cases e with
              | some err =>
                simp only [walk_trace] at hw
                rcases List.mem_append.mp hw with h' | h'
                · exact Or.inl h'
                · obtain ⟨r, hrw⟩ := hrec (names ++ [t.name]) t w (by rw [hr]; exact h')
                  exact Or.inr ⟨t.name, r, by rw [hrw, List.append_assoc]; rfl⟩
              | none =>
                simp only at hw
                rcases ih (dirs ++ [entry_of names t]) files (tr ++ ctr) w hw with
                  h' | h'
                · rcases List.mem_append.mp h' with h'' | h''
                  · exact Or.inl h''
                  · obtain ⟨r, hrw⟩ :=
                      hrec (names ++ [t.name]) t w (by rw [hr]; exact h'')
                    exact Or.inr ⟨t.name, r, by rw [hrw, List.append_assoc]; rfl⟩
                · exact Or.inr h'

/-- Every write in a `generate_index` trace happens in the visited
directory itself or somewhere strictly below it. -/
theorem generate_index_trace_below :
    ∀ (fuel : Nat) (t : FsTree) (names : List String) (w : Write),
      w ∈ (generate_index fuel names t).1 → ∃ rest, w.dir = names ++ rest := by
  intro fuel
  induction fuel with
  | zero => intro t names w hw; simp [generate_index] at hw
  | succ fuel ih =>
    intro t names w hw
    match t with
    | .file n m => simp [generate_index] at hw
    | .dir nm mt rd cs jk hk =>
      rw [generate_index] at hw
      cases rd with
      | false => simp at hw
      | true =>
        simp only [if_true] at hw
        cases hwk : walk_children (generate_index fuel) names cs [] [] [] with
        | error p =>
          obtain ⟨T, e⟩ := p
          rw [hwk] at hw
          simp only at hw
          rcases walk_children_trace_below (generate_index fuel) names
              (fun n' t' w' h' => ih t' n' w' h') cs [] [] [] w
              (by rw [hwk]; exact hw) with h' | h'
          · exact absurd h' (List.not_mem_nil w)
          · obtain ⟨c, r, hr⟩ := h'
            exact ⟨c :: r, hr⟩
        | ok q =>
          obtain ⟨D, F, T⟩ := q
          rw [hwk] at hw
          have hT : ∀ w', w' ∈ T → ∃ rest, w'.dir = names ++ rest := by
            intro w' hw'
            rcases walk_children_trace_below (generate_index fuel) names
                (fun n' t' w'' h' => ih t' n' w'' h') cs [] [] [] w'
                (by rw [hwk]; exact hw') with h' | h'
            · exact absurd h' (List.not_mem_nil w')
            · obtain ⟨c, r, hr⟩ := h'
              exact ⟨c :: r, hr⟩
          cases jk with
          | false => exact hT w hw
          | true =>
            simp only [if_true] at hw
            cases hk with
            | false =>
              rcases List.mem_append.mp hw with h' | h'
              · exact hT w h'
              · rcases List.mem_singleton.mp h' with rfl
                exact ⟨[], by simp [Write.dir]⟩
            | true =>
              simp only [if_true] at hw
              rcases List.mem_append.mp hw with h' | h'
              · rcases List.mem_append.mp h' with h'' | h''
                · exact hT w h''
                · rcases List.mem_singleton.mp h'' with rfl
                  exact ⟨[], by simp [Write.dir]⟩
              · rcases List.mem_singleton.mp h' with rfl
                exact ⟨[], by simp [Write.dir]⟩

/-- Every write in the subdirectories' combined traces lies strictly
below the parent directory. -/
theorem children_traces_below (fuel : Nat) (names : List String)
    (cs : List (Option FsTree)) (w : Write)
    (hw : w ∈ children_traces (generate_index fuel) names cs) :
    ∃ c rest, w.dir = names ++ c :: rest := by
  rw [children_traces] at hw
  obtain ⟨t, _, hmem⟩ := List.mem_flatMap.mp hw
  obtain ⟨r, hr⟩ := generate_index_trace_below fuel t (names ++ [t.name]) w hmem
  exact ⟨t.name, r, by rw [hr, List.append_assoc]; rfl⟩

/-- C5: on a successful visit of a directory, the `index.json` written
there holds exactly the entries of the non-directory, non-ignored
children (a permutation — no child omitted, no extras, no
subdirectories), ordered so every adjacent pair has non-increasing
modification date, and each serialized entry is the `name`/`date`/`size`
projection of an `Entry` (`path` and `icon` dropped). -/
theorem json_listing_exact
    (fuel : Nat) (names : List String) (nm : String) (mt : Option Meta)
    (rd : Bool) (cs : List (Option FsTree)) (jk hk : Bool) (tr : List Write)
    (h : generate_index (fuel + 1) names (FsTree.dir nm mt rd cs jk hk)
          = (tr, none)) :
    ∃ js : List JsonEntry,
      Write.json names js ∈ tr
      ∧ (∀ js', Write.json names js' ∈ tr → js' = js)
      ∧ js.Perm ((file_children cs).map (fun t => serialize_entry (entry_of names t)))
      ∧ List.Chain' (fun a b : JsonEntry => b.date ≤ a.date) js
      ∧ ∃ fl : List Entry, js = fl.map serialize_entry := by
  have htr := generate_index_success fuel names nm mt rd cs jk hk tr h
  refine ⟨(List.insertionSort by_date_desc
      ((file_children cs).map (entry_of names))).map serialize_entry,
    ?_, ?_, ?_, ?_,
    ⟨List.insertionSort by_date_desc ((file_children cs).map (entry_of names)), rfl⟩⟩
  · rw [htr]; simp
  · intro js' hjs'
    rw [htr] at hjs'
    rcases List.mem_append.mp hjs' with h' | h'
    · obtain ⟨c, r, hcr⟩ := children_traces_below fuel names cs _ h'
      simp only [Write.dir] at hcr
      have hlen := congrArg List.length hcr
      simp at hlen
    · rcases List.mem_cons.mp h' with heq | h''
      · exact ((Write.json.injEq _ _ _ _).mp heq).2
      · rcases List.mem_singleton.mp h'' with heq
        exact absurd heq (by simp)
  · have hperm :=
      (List.perm_insertionSort by_date_desc
        ((file_children cs).map (entry_of names))).map serialize_entry
    simpa [List.map_map, Function.comp] using hperm
  · have hsorted :=
      List.sorted_insertionSort by_date_desc
        ((file_children cs).map (entry_of names))
    have H : ∀ a b : Entry, by_date_desc a b →
        (fun x y : JsonEntry => y.date ≤ x.date) (serialize_entry a) (serialize_entry b) :=
      fun a b hab => hab
    exact (List.Pairwise.map serialize_entry H hsorted).chain'

/-- C5 (witness for `json_listing_exact`): the sample tree. -/
theorem json_listing_exact_witness :
    ∃ js : List JsonEntry,
      Write.json [] js ∈ (generate_index 2 [] sample_tree).1
      ∧ (∀ js', Write.json [] js' ∈ (generate_index 2 [] sample_tree).1 → js' = js)
      ∧ js.Perm ((file_children sample_children).map
          (fun t => serialize_entry (entry_of [] t)))
      ∧ List.Chain' (fun a b : JsonEntry => b.date ≤ a.date) js
      ∧ ∃ fl : List Entry, js = fl.map serialize_entry :=
  json_listing_exact 1 [] "." none true sample_children true true
    (generate_index 2 [] sample_tree).1 rfl

/-- C6: on a successful visit of a directory, the combined entry
sequence handed to the HTML listing is a block of directory entries
followed by a block of file entries; the directory block is a
permutation of the kept subdirectory children's entries sorted by name
ascending, the file block a permutation of the kept file children's
entries sorted by modification date descending. -/
theorem html_listing_order
    (fuel : Nat) (names : List String) (nm : String) (mt : Option Meta)
    (rd : Bool) (cs : List (Option FsTree)) (jk hk : Bool) (tr : List Write)
    (h : generate_index (fuel + 1) names (FsTree.dir nm mt rd cs jk hk)
          = (tr, none)) :
    ∃ ds fs : List Entry,
      Write.html names VENDOR_DIR_NAME
          (to_breadcrumbs (Component.curDir :: names.map Component.normal))
          (ds ++ fs) ∈ tr
      ∧ (∀ v bc es, Write.html names v bc es ∈ tr → es = ds ++ fs)
      ∧ ds.Perm ((dir_children cs).map (entry_of names))
      ∧ fs.Perm ((file_children cs).map (entry_of names))
      ∧ List.Chain' (fun a b : Entry => a.name ≤ b.name) ds
      ∧ List.Chain' (fun a b : Entry => b.date ≤ a.date) fs := by
  have htr := generate_index_success fuel names nm mt rd cs jk hk tr h
  refine ⟨List.insertionSort by_name ((dir_children cs).map (entry_of names)),
    List.insertionSort by_date_desc ((file_children cs).map (entry_of names)),
    ?_, ?_, ?_, ?_, ?_, ?_⟩
  · rw [htr]; simp
  · intro v bc es hes
    rw [htr] at hes
    rcases List.mem_append.mp hes with h' | h'
    · obtain ⟨c, r, hcr⟩ := children_traces_below fuel names cs _ h'
      simp only [Write.dir] at hcr
      have hlen := congrArg List.length hcr
      simp at hlen
    · rcases List.mem_cons.mp h' with heq | h''
      · exact absurd heq (by simp)
      · rcases List.mem_singleton.mp h'' with heq
        exact ((Write.html.injEq _ _ _ _ _ _ _ _).mp heq).2.2.2
  · exact List.perm_insertionSort by_name _
  · exact List.perm_insertionSort by_date_desc _
  · exact (List.sorted_insertionSort by_name _).chain'
  · exact (List.sorted_insertionSort by_date_desc _).chain'

/-- C6 (witness for `html_listing_order`): the sample tree. -/
theorem html_listing_order_witness :
    ∃ ds fs : List Entry,
      Write.html [] VENDOR_DIR_NAME
          (to_breadcrumbs [Component.curDir]) (ds ++ fs)
        ∈ (generate_index 2 [] sample_tree).1
      ∧ (∀ v bc es, Write.html [] v bc es ∈ (generate_index 2 [] sample_tree).1 →
          es = ds ++ fs)
      ∧ ds.Perm ((dir_children sample_children).map (entry_of []))
      ∧ fs.Perm ((file_children sample_children).map (entry_of []))
      ∧ List.Chain' (fun a b : Entry => a.name ≤ b.name) ds
      ∧ List.Chain' (fun a b : Entry => b.date ≤ a.date) fs :=
  html_listing_order 1 [] "." none true sample_children true true
    (generate_index 2 [] sample_tree).1 rfl

/-- C10: listing writes are depth-first, children before parent.  On a
successful visit, the trace is the subdirectories' full traces followed
by this directory's own two writes; when the children loop aborts (a
failure anywhere inside the subtree), the directory's own `index.json`
and `index.html` are never written and the error propagates — applied at
each ancestor, an abort inside a subdirectory leaves every ancestor's
own listings unwritten; and a successful visit requires every kept
subdirectory's recursive visit to have completed without error. -/
theorem depth_first_write_order :
    (∀ (fuel : Nat) (names : List String) (nm : String) (mt : Option Meta)
       (rd : Bool) (cs : List (Option FsTree)) (jk hk : Bool) (tr : List Write),
       generate_index (fuel + 1) names (FsTree.dir nm mt rd cs jk hk) = (tr, none) →
       ∃ js v bc es,
         tr = children_traces (generate_index fuel) names cs
              ++ [Write.json names js, Write.html names v bc es])
    ∧ (∀ (fuel : Nat) (names : List String) (nm : String) (mt : Option Meta)
        (cs : List (Option FsTree)) (jk hk : Bool) (T : List Write) (e : Err),
        walk_children (generate_index fuel) names cs [] [] [] = Except.error (T, e) →
        generate_index (fuel + 1) names (FsTree.dir nm mt true cs jk hk) = (T, some e)
        ∧ (∀ js, Write.json names js ∉ T)
        ∧ (∀ v bc es, Write.html names v bc es ∉ T))
    ∧ (∀ (fuel : Nat) (names : List String) (nm : String) (mt : Option Meta)
        (rd : Bool) (cs : List (Option FsTree)) (jk hk : Bool) (tr : List Write),
        generate_index (fuel + 1) names (FsTree.dir nm mt rd cs jk hk) = (tr, none) →
        ∀ t ∈ dir_children cs, (generate_index fuel (names ++ [t.name]) t).2 = none) := by
  refine ⟨?_, ?_, ?_⟩
  · intro fuel names nm mt rd cs jk hk tr h
    exact ⟨_, _, _, _, generate_index_success fuel names nm mt rd cs jk hk tr h⟩
  · intro fuel names nm mt cs jk hk T e hw
    have hbelow : ∀ w ∈ T, ∃ c rest, Write.dir w = names ++ c :: rest := by
      intro w hmem
      rcases walk_children_trace_below (generate_index fuel) names
          (fun n' t' w' h' => generate_index_trace_below fuel t' n' w' h')
          cs [] [] [] w (by rw [hw]; exact hmem) with h' | h'
      · exact absurd h' (List.not_mem_nil w)
      · exact h'
    refine ⟨?_, ?_, ?_⟩
    · rw [generate_index]
      simp only [if_true]
      rw [hw]
    · intro js hjs
      obtain ⟨c, r, hcr⟩ := hbelow _ hjs
      simp only [Write.dir] at hcr
      have hlen := congrArg List.length hcr
      simp at hlen
    · intro v bc es hes
      obtain ⟨c, r, hcr⟩ := hbelow _ hes
      simp only [Write.dir] at hcr
      have hlen := congrArg List.length hcr
      simp at hlen
  · intro fuel names nm mt rd cs jk hk tr h t ht
    rw [generate_index] at h
    cases rd with
    | false => exact absurd h (by simp)
    | true =>
      simp only [if_true] at h
      cases hwk : walk_children (generate_index fuel) names cs [] [] [] with
      | error p =>
        obtain ⟨T', e⟩ := p
        rw [hwk] at h
        exact absurd h (by simp)
      | ok q =>
        obtain ⟨D, F, T'⟩ := q
        exact (walk_children_ok (generate_index fuel) names cs [] [] [] D F T' hwk).2.2.2
          t ht

/-- C10 (witness for `depth_first_write_order`): the sample tree for the
success shape and the children-completed part, and a tree whose
subdirectory is unreadable for the abort part. -/
theorem depth_first_write_order_witness :
    (∃ js v bc es,
       (generate_index 2 [] sample_tree).1
         = children_traces (generate_index 1) [] sample_children
           ++ [Write.json [] js, Write.html [] v bc es])
    ∧ (generate_index 2 [] (FsTree.dir "." none true unreadable_sub_children true true)
         = ([], some Err.readDir)
       ∧ (∀ js, Write.json [] js ∉ ([] : List Write))
       ∧ (∀ v bc es, Write.html [] v bc es ∉ ([] : List Write)))
    ∧ (∀ t ∈ dir_children sample_children,
        (generate_index 1 ([] ++ [t.name]) t).2 = none) :=
  ⟨depth_first_write_order.1 1 [] "." none true sample_children true true
     (generate_index 2 [] sample_tree).1 rfl,
   depth_first_write_order.2.1 1 [] "." none unreadable_sub_children true true
     [] Err.readDir rfl,
   depth_first_write_order.2.2 1 [] "." none true sample_children true true
     (generate_index 2 [] sample_tree).1 rfl⟩

/-- C1 (counterexample): a directory visit in which the first child's
metadata read fails and a healthy sibling follows.  The run aborts with
the metadata error and writes nothing — the failing child is not
skipped, and the sibling is never indexed, contradicting the claim that
indexing continues. -/
theorem metadata_failure_aborts :
    (generate_index 2 [] metadata_failure_tree).2 = some Err.metadata
    ∧ (generate_index 2 [] metadata_failure_tree).1 = [] := ⟨rfl, rfl⟩

/-- C1 (amended): the failure that is skipped is an `Err` item of the
`read_dir` iterator (the `if let Ok(dir_entry)` pattern drops it and the
loop continues with the siblings); a failure of the metadata read inside
`Entry::new`, by contrast, propagates through `?` and aborts the whole
run. -/
theorem child_read_failure_skipped :
    (∀ (fuel : Nat) (names : List String) (nm : String) (mt : Option Meta)
        (rd : Bool) (cs : List (Option FsTree)) (jk hk : Bool),
        generate_index fuel names (FsTree.dir nm mt rd (none :: cs) jk hk)
          = generate_index fuel names (FsTree.dir nm mt rd cs jk hk))
    ∧ (∀ (fuel : Nat) (names : List String) (nm : String) (mt : Option Meta)
        (jk hk : Bool) (n : String) (rest : List (Option FsTree)),
        ignore (some n) = false →
        generate_index (fuel + 1) names
            (FsTree.dir nm mt true (some (FsTree.file n none) :: rest) jk hk)
          = ([], some Err.metadata)) := by
  constructor
  · intro fuel names nm mt rd cs jk hk
    cases fuel with
    | zero => rfl
    | succ fuel => rfl
  · intro fuel names nm mt jk hk n rest hig
    rw [generate_index]
    simp only [if_true]
    rw [walk_children]
    simp only [FsTree.name] at *
    rw [hig]
    simp only [Bool.false_eq_true, if_false]
    rw [@entry_new_err names (FsTree.file n none) rfl]

/-- C1 (witness for `child_read_failure_skipped`): concrete trees — an
`Err` iterator item before a healthy file, and a file with failing
metadata. -/
theorem child_read_failure_skipped_witness :
    generate_index 2 []
        (FsTree.dir "." none true
          (none :: [some (FsTree.file "a" (some ⟨1, 1⟩))]) true true)
      = generate_index 2 []
        (FsTree.dir "." none true [some (FsTree.file "a" (some ⟨1, 1⟩))] true true)
    ∧ generate_index 2 []
        (FsTree.dir "." none true [some (FsTree.file "bad" none)] true true)
      = ([], some Err.metadata) :=
  ⟨child_read_failure_skipped.1 2 [] "." none true
     [some (FsTree.file "a" (some ⟨1, 1⟩))] true true,
   child_read_failure_skipped.2 1 [] "." none true true "bad" [] (by decide)⟩

/-- Both outcomes of the children loop preserve name-cleanliness: given
accumulators and an input trace that never carry an ignorable name, and
recursive traces with the same property, the resulting trace and the
collected entry vectors never carry an ignorable name. -/
theorem walk_children_clean
    (rec : List String → FsTree → List Write × Option Err)
    (names : List String)
    (hrec : ∀ (names' : List String) (t : FsTree) (w : Write),
        w ∈ (rec names' t).1 → ∀ nm ∈ w.entry_names, ignore (some nm) = false) :
    ∀ (cs : List (Option FsTree)) (dirs files : List Entry) (tr : List Write),
      (∀ e ∈ dirs, ignore (some e.name) = false) →
      (∀ e ∈ files, ignore (some e.name) = false) →
      (∀ w ∈ tr, ∀ nm ∈ w.entry_names, ignore (some nm) = false) →
      (∀ w ∈ walk_trace (walk_children rec names cs dirs files tr),
          ∀ nm ∈ w.entry_names, ignore (some nm) = false)
      ∧ (∀ D F T, walk_children rec names cs dirs files tr = Except.ok (D, F, T) →
           (∀ e ∈ D, ignore (some e.name) = false)
           ∧ (∀ e ∈ F, ignore (some e.name) = false)) := by
  intro cs
  induction cs with
  | nil =>
    intro dirs files tr hd hf ht
    refine ⟨ht, ?_⟩
    intro D F T h
    simp only [walk_children, Except.ok.injEq, Prod.mk.injEq] at h
    obtain ⟨h1, h2, _⟩ := h
    subst h1; subst h2
    exact ⟨hd, hf⟩
  | cons c rest ih =>
    intro dirs files tr hd hf ht
    match c with
    | none => exact ih dirs files tr hd hf ht
    | some t =>
      simp only [walk_children]
      cases hig : ignore (some t.name) with
      | true =>
        simp only [if_true]
        exact ih dirs files tr hd hf ht
      | false =>
        simp only [Bool.false_eq_true, if_false]
        cases hm : t.meta with
        | none =>
          rw [entry_new_err hm]
          refine ⟨ht, ?_⟩
          intro D F T h
          exact absurd h (by simp)
        | some m =>
          rw [entry_new_ok hm]
          simp only
          have hentry : ignore (some (entry_of names t).name) = false := hig
          cases hd' : t.isDir with
          | false =>
            simp only [Bool.false_eq_true, if_false]
            refine ih dirs (files ++ [entry_of names t]) tr hd ?_ ht
            intro e he
            rcases List.mem_append.mp he with h' | h'
            · exact hf e h'
            · rcases List.mem_singleton.mp h' with rfl
              exact hentry
          | true =>
            simp only [if_true]
            cases hr : rec (names ++ [t.name]) t with
            | mk ctr e? =>
              cases e? with
              | some err =>
                refine ⟨?_, ?_⟩
                · intro w hw
                  simp only [walk_trace] at hw
                  rcases List.mem_append.mp hw with h' | h'
                  · exact ht w h'
                  · exact hrec (names ++ [t.name]) t w (by rw [hr]; exact h')
                · intro D F T h
                  exact absurd h (by simp)
              | none =>
                refine ih (dirs ++ [entry_of names t]) files (tr ++ ctr) ?_ hf ?_
                · intro e he
                  rcases List.mem_append.mp he with h' | h'
                  · exact hd e h'
                  · rcases List.mem_singleton.mp h' with rfl
                    exact hentry
                · intro w hw
                  rcases List.mem_append.mp hw with h' | h'
                  · exact ht w h'
                  · exact hrec (names ++ [t.name]) t w (by rw [hr]; exact h')

/-- No write anywhere in a `generate_index` trace (any fuel, completed
or aborted) lists an entry whose name the `ignore` predicate holds of. -/
theorem generate_index_clean :
    ∀ (fuel : Nat) (t : FsTree) (names : List String) (w : Write),
      w ∈ (generate_index fuel names t).1 →
      ∀ nm ∈ w.entry_names, ignore (some nm) = false := by
  intro fuel
  induction fuel with
  | zero => intro t names w hw; simp [generate_index] at hw
  | succ fuel ih =>
    intro t names w hw
    match t with
    | .file n m => simp [generate_index] at hw
    | .dir nm mt rd cs jk hk =>
      rw [generate_index] at hw
      cases rd with
      | false => simp at hw
      | true =>
        simp only [if_true] at hw
        have hclean := walk_children_clean (generate_index fuel) names
          (fun names' t' w' h' => ih t' names' w' h') cs [] [] []
          (by simp) (by simp) (by simp)
        cases hwk : walk_children (generate_index fuel) names cs [] [] [] with
        | error p =>
          obtain ⟨T, e⟩ := p
          rw [hwk] at hw
          exact hclean.1 w (by rw [hwk]; exact hw)
        | ok q =>
          obtain ⟨D, F, T⟩ := q
          rw [hwk] at hw
          obtain ⟨hD, hF⟩ := hclean.2 D F T hwk
          have hT : ∀ w' ∈ T, ∀ nm' ∈ w'.entry_names, ignore (some nm') = false :=
            fun w' h' => hclean.1 w' (by rw [hwk]; exact h')
          have hjson : ∀ nm' ∈ (Write.json names
              ((List.insertionSort by_date_desc F).map serialize_entry)).entry_names,
              ignore (some nm') = false := by
            intro nm' hnm'
            simp only [Write.entry_names, List.map_map] at hnm'
            obtain ⟨e, he, hee⟩ := List.mem_map.mp hnm'
            exact hee ▸ hF e ((List.mem_insertionSort by_date_desc).mp he)
          have hhtml : ∀ v bc, ∀ nm' ∈ (Write.html names v bc
              (List.insertionSort by_name D
                ++ List.insertionSort by_date_desc F)).entry_names,
              ignore (some nm') = false := by
            intro v bc nm' hnm'
            simp only [Write.entry_names] at hnm'
            obtain ⟨e, he, hee⟩ := List.mem_map.mp hnm'
            rcases List.mem_append.mp he with h' | h'
            · exact hee ▸ hD e ((List.mem_insertionSort by_name).mp h')
            · exact hee ▸ hF e ((List.mem_insertionSort by_date_desc).mp h')
          cases jk with
          | false => exact hT w hw
          | true =>
            simp only [if_true] at hw
            cases hk with
            | false =>
              rcases List.mem_append.mp hw with h' | h'
              · exact hT w h'
              · rcases List.mem_singleton.mp h' with rfl
                exact hjson
            | true =>
              simp only [if_true] at hw
              rcases List.mem_append.mp hw with h' | h'
              · rcases List.mem_append.mp h' with h'' | h''
                · exact hT w h''
                · rcases List.mem_singleton.mp h'' with rfl
                  exact hjson
              · rcases List.mem_singleton.mp h' with rfl
                exact hhtml _ _

/-- C7: a child is excluded by `ignore` exactly when its file name is
the vendor subdirectory name, `index.html`, or `index.json`; and
consequently, at every depth and in every run (completed or aborted), no
generated listing carries an entry with one of these names. -/
theorem ignored_names_never_listed :
    (∀ s : String, ignore (some s) = true ↔
        (s = VENDOR_DIR_NAME ∨ s = "index.html" ∨ s = "index.json"))
    ∧ (∀ (fuel : Nat) (names : List String) (t : FsTree) (w : Write),
        w ∈ (generate_index fuel names t).1 →
        ∀ nm ∈ w.entry_names,
          ¬(nm = VENDOR_DIR_NAME ∨ nm = "index.html" ∨ nm = "index.json")) := by
  have hiff : ∀ s : String, ignore (some s) = true ↔
      (s = VENDOR_DIR_NAME ∨ s = "index.html" ∨ s = "index.json") := by
    intro s
    simp [ignore, or_assoc]
  refine ⟨hiff, ?_⟩
  intro fuel names t w hw nm hnm hbad
  have hfalse := generate_index_clean fuel t names w hw nm hnm
  have htrue := (hiff nm).mpr hbad
  rw [hfalse] at htrue
  exact absurd htrue (by decide)

/-- C7 (witness for `ignored_names_never_listed`): the vendor name
satisfies the predicate, and the root `index.json` write of the sample
run lists only `a.txt`, which is not an ignorable name. -/
theorem ignored_names_never_listed_witness :
    (ignore (some "_vendor") = true ↔
      ("_vendor" = VENDOR_DIR_NAME ∨ "_vendor" = "index.html"
        ∨ "_vendor" = "index.json"))
    ∧ (∀ nm ∈ (Write.json [] [⟨"a.txt", 10, "5 B"⟩]).entry_names,
        ¬(nm = VENDOR_DIR_NAME ∨ nm = "index.html" ∨ nm = "index.json")) :=
  ⟨ignored_names_never_listed.1 "_vendor",
   ignored_names_never_listed.2 2 [] sample_tree
     (Write.json [] [⟨"a.txt", 10, "5 B"⟩]) (by decide)⟩

end Cdnizer
